import Mathlib

/-!
Verification of the `allaning/utils` repository against its specification.

The repository holds two independent command-line utilities:

* `src/SplitFile/SplitFile.py` — splits line-oriented text files into a
  rotating sequence of output files of at most `max_lines` content lines
  each, optionally prefixing every output file with a preamble (header)
  block;
* `src/ics_parser/ics_parser.py` — reads a calendar-exchange (`.ics`)
  file, sorts its events chronologically and renders a text report.

Both tools are shallowly embedded below.  Text files are modelled as
`List String`, each element being one line exactly as Python's
`readline`/`readlines` return it (terminator included); `readline`
returning the empty string at end of file corresponds to the end of the
list.  Python's non-negative integer arithmetic (`int(count/max_lines)`,
`count % max_lines`) is modelled with `Nat` division and modulus.
-/

namespace SplitFile

/-- One output file produced by the splitter: its chunk index (the integer
interpolated into the file name) together with the full list of lines
written to it, i.e. the preamble lines followed by the content lines. -/
abbrev Chunk := Nat × List String

/-- Embedding of the `while True:` loop of `main` (SplitFile.py lines
59-80).  Arguments: `p` the preamble lines, `m` the `max_lines` bound,
then the remaining input lines, the running line counter `count`, the
index of the currently open output file, the lines written to it so far,
and the already closed output files in order of creation.

Each iteration mirrors the Python body: `count += 1` happens first; when
`readline` returns the empty string (here: the line list is exhausted)
the loop breaks and the currently open file is closed; otherwise the
line is written, and if `count % max_lines == 0` the current file is
closed and a fresh one with index `int(count/max_lines)` is opened and
receives the preamble. -/
def splitLoop (p : List String) (m : Nat) :
    List String → Nat → Nat → List String → List Chunk → List Chunk × Nat
  | [], count, curIdx, cur, acc => (acc ++ [(curIdx, cur)], count + 1)
  | l :: rest, count, curIdx, cur, acc =>
    if (count + 1) % m = 0 then
      splitLoop p m rest (count + 1) ((count + 1) / m) p (acc ++ [(curIdx, cur ++ [l])])
    else
      splitLoop p m rest (count + 1) curIdx (cur ++ [l]) acc

/-- Processing of a single input file (SplitFile.py lines 47-80): with the
running counter at `count0`, the first output file gets index
`int(count0/max_lines)` and starts with the preamble, then the loop runs.
Returns the produced output files in order of creation together with the
counter value after the loop (the final `count += 1` of the iteration
that hit end of file included, exactly as in the source). -/
def splitOne (p : List String) (m count0 : Nat) (lines : List String) :
    List Chunk × Nat :=
  splitLoop p m lines count0 (count0 / m) p []

/-- The `for input_filename in args.files` loop of `main` (SplitFile.py
lines 46-80) in the error-free case: each input file is processed in
turn, the counter carrying over from one file to the next (it is never
reset).  Returns the list of per-input-file chunk lists and the final
counter. -/
def splitAll (p : List String) (m : Nat) :
    List (List String) → Nat → List (List Chunk) × Nat
  | [], count => ([], count)
  | f :: fs, count =>
    let r := splitOne p m count f
    let rs := splitAll p m fs r.2
    (r.1 :: rs.1, rs.2)

/-- The same `for` loop with fallible inputs, embedding the `try`/`except`
that wraps it (SplitFile.py lines 45-83): each input is a name together
with either its lines or a read failure.  The first failing input aborts
the whole loop — no later input is processed — and its name is the one
reported by the `except` handler (`"ERROR processing {}"` with the
current `input_filename`).  Output files of earlier, completed inputs
remain. -/
def splitAllE (p : List String) (m : Nat) :
    List (String × Except Unit (List String)) → Nat →
    List (String × List Chunk) × Option String
  | [], _ => ([], none)
  | (name, Except.error _) :: _, _ => ([], some name)
  | (name, Except.ok f) :: fs, count =>
    let r := splitOne p m count f
    let rs := splitAllE p m fs r.2
    ((name, r.1) :: rs.1, rs.2)

/-- Preamble loading (SplitFile.py lines 30-37): `preamble = []`; when a
preamble path is given its lines are read, and on a read failure the
`except` branch reports an error and leaves `preamble` empty.  The
argument is `none` when no `-p` option was given, `some (Except.ok ls)`
when the header file was read as the line list `ls`, and
`some (Except.error ())` when reading it raised. -/
def loadPreamble : Option (Except Unit (List String)) → List String
  | none => []
  | some (Except.ok ls) => ls
  | some (Except.error _) => []

/-- A whole invocation of `main`: load the preamble, then run the input
loop with the counter starting at 0 (SplitFile.py line 44). -/
def runSplit (pre : Option (Except Unit (List String))) (m : Nat)
    (files : List (String × Except Unit (List String))) :
    List (String × List Chunk) × Option String :=
  splitAllE (loadPreamble pre) m files 0

/-- Output file name construction (SplitFile.py lines 50 and 71):
`input_filename_parts[0] + "-" + str(int(count/max_lines)) +
input_filename_parts[1]`, with the index already divided out. -/
def outputFilename (stem ext : String) (idx : Nat) : String :=
  stem ++ "-" ++ toString idx ++ ext

/-- The content lines of an output file: its lines with the preamble
prefix removed. -/
def contentOf (p : List String) (c : Chunk) : List String :=
  c.2.drop p.length

end SplitFile

section SplitFileScratch

open SplitFile

example : splitOne [] 2 0 ["a\n", "b\n", "c\n"] =
    ([(0, ["a\n", "b\n"]), (1, ["c\n"])], 4) := by decide

example : splitOne [] 2 0 ["a\n", "b\n"] =
    ([(0, ["a\n", "b\n"]), (1, [])], 3) := by decide

example : splitOne ["h\n"] 2 0 [] = ([(0, ["h\n"])], 1) := by decide

example : splitAll [] 2 [["a\n", "b\n"], ["x\n", "y\n", "z\n"]] 0 =
    ([[(0, ["a\n", "b\n"]), (1, [])],
      [(1, ["x\n"]), (2, ["y\n", "z\n"]), (3, [])]], 7) := by decide

end SplitFileScratch

namespace SplitFile

/-- `%`/`/` bookkeeping: when `count + 1` lands on a rotation boundary the
previous remainder was `m - 1`. -/
theorem mod_succ_boundary {m count : Nat} (hm : 0 < m)
    (h : (count + 1) % m = 0) : count % m + 1 = m := by
  rcases Nat.lt_or_ge 1 m with h1 | h1
  · have h2 : (count + 1) % m = (count % m + 1 % m) % m := by
      rw [Nat.add_mod]
    have h3 : 1 % m = 1 := Nat.mod_eq_of_lt h1
    have h4 : count % m < m := Nat.mod_lt _ hm
    rw [h3] at h2
    by_cases h5 : count % m + 1 = m
    · exact h5
    · have h6 : count % m + 1 < m := by omega
      rw [Nat.mod_eq_of_lt h6] at h2
      omega
  · have hm1 : m = 1 := by omega
    subst hm1
    omega

/-- `%` bookkeeping: off the rotation boundary the remainder just grows. -/
theorem mod_succ_off_boundary {m count : Nat} (hm : 0 < m)
    (h : (count + 1) % m ≠ 0) : (count + 1) % m = count % m + 1 := by
  rcases Nat.lt_or_ge 1 m with h1 | h1
  · have h2 : (count + 1) % m = (count % m + 1 % m) % m := by
      rw [Nat.add_mod]
    have h3 : 1 % m = 1 := Nat.mod_eq_of_lt h1
    have h4 : count % m < m := Nat.mod_lt _ hm
    rw [h3] at h2
    by_cases h5 : count % m + 1 = m
    · rw [h5, Nat.mod_self] at h2; exact absurd h2 h
    · have h6 : count % m + 1 < m := by omega
      rw [Nat.mod_eq_of_lt h6] at h2
      exact h2
  · exfalso
    apply h
    have hm1 : m = 1 := by omega
    subst hm1
    omega

/-- `/` bookkeeping: crossing a boundary increments the quotient. -/
theorem div_succ_boundary {m count : Nat}
    (h : (count + 1) % m = 0) : (count + 1) / m = count / m + 1 :=
  Nat.succ_div_of_dvd (Nat.dvd_of_mod_eq_zero h)

/-- `/` bookkeeping: off a boundary the quotient is unchanged. -/
theorem div_succ_off_boundary {m count : Nat}
    (h : (count + 1) % m ≠ 0) : (count + 1) / m = count / m :=
  Nat.succ_div_of_not_dvd (fun hd => h (Nat.mod_eq_zero_of_dvd hd))

/-- The accumulator argument of `splitLoop` only collects already closed
output files: it can be pulled out of the recursion. -/
theorem splitLoop_acc (p : List String) (m : Nat) (ls : List String) :
    ∀ (count curIdx : Nat) (cur : List String) (acc : List Chunk),
    splitLoop p m ls count curIdx cur acc =
      (acc ++ (splitLoop p m ls count curIdx cur []).1,
       (splitLoop p m ls count curIdx cur []).2) := by
  induction ls with
  | nil => intro count curIdx cur acc; simp [splitLoop]
  | cons l rest ih =>
    intro count curIdx cur acc
    by_cases h : (count + 1) % m = 0
    · simp only [splitLoop, if_pos h]
      rw [ih (count + 1) ((count + 1) / m) p (acc ++ [(curIdx, cur ++ [l])]),
        ih (count + 1) ((count + 1) / m) p ([] ++ [(curIdx, cur ++ [l])])]
      simp
    · simp only [splitLoop, if_neg h]
      exact ih (count + 1) curIdx (cur ++ [l]) acc

/-- The loop always closes at least one output file. -/
theorem splitLoop_ne_nil (p : List String) (m : Nat) (ls : List String) :
    ∀ (count curIdx : Nat) (cur : List String),
    (splitLoop p m ls count curIdx cur []).1 ≠ [] := by
  induction ls with
  | nil => intro count curIdx cur; simp [splitLoop]
  | cons l rest ih =>
    intro count curIdx cur
    by_cases h : (count + 1) % m = 0
    · simp only [splitLoop, if_pos h]
      rw [splitLoop_acc]
      simp
    · simp only [splitLoop, if_neg h]
      exact ih (count + 1) curIdx (cur ++ [l])

/-- The counter is incremented once per loop iteration, including the
final iteration that only discovers end of input: it ends at
`count + n + 1` for `n` input lines. -/
theorem splitLoop_count (p : List String) (m : Nat) (ls : List String) :
    ∀ (count curIdx : Nat) (cur : List String) (acc : List Chunk),
    (splitLoop p m ls count curIdx cur acc).2 = count + ls.length + 1 := by
  induction ls with
  | nil => intro count curIdx cur acc; simp [splitLoop]
  | cons l rest ih =>
    intro count curIdx cur acc
    by_cases h : (count + 1) % m = 0
    · simp only [splitLoop, if_pos h]
      rw [ih]
      simp; omega
    · simp only [splitLoop, if_neg h]
      rw [ih]
      simp; omega

/-- Round trip at loop level: with the current output file holding the
preamble plus content `c0`, the content lines of all output files the
loop will have produced, concatenated, are `c0` followed by the
remaining input lines. -/
theorem splitLoop_flatten (p : List String) (m : Nat) (ls : List String) :
    ∀ (count curIdx : Nat) (c0 : List String),
    ((splitLoop p m ls count curIdx (p ++ c0) []).1.map (contentOf p)).flatten =
      c0 ++ ls := by
  induction ls with
  | nil =>
    intro count curIdx c0
    simp [splitLoop, contentOf, List.drop_left]
  | cons l rest ih =>
    intro count curIdx c0
    by_cases h : (count + 1) % m = 0
    · simp only [splitLoop, if_pos h]
      rw [splitLoop_acc]
      have hp : (p : List String) = p ++ [] := by simp
      rw [List.nil_append, List.map_append, List.flatten_append]
      have ih0 := ih (count + 1) ((count + 1) / m) []
      rw [List.append_nil] at ih0
      rw [ih0]
      simp [contentOf, List.append_assoc, List.drop_left']
    · simp only [splitLoop, if_neg h]
      have ih1 := ih (count + 1) curIdx (c0 ++ [l])
      rw [← List.append_assoc] at ih1
      rw [ih1]
      simp

/-- Number of output files the loop produces: one per rotation boundary
crossed, plus the one open at end of input. -/
theorem splitLoop_length (p : List String) (m : Nat) (hm : 0 < m)
    (ls : List String) :
    ∀ (count curIdx : Nat) (cur : List String),
    (splitLoop p m ls count curIdx cur []).1.length =
      (count + ls.length) / m - count / m + 1 := by
  induction ls with
  | nil => intro count curIdx cur; simp [splitLoop]
  | cons l rest ih =>
    intro count curIdx cur
    by_cases h : (count + 1) % m = 0
    · simp only [splitLoop, if_pos h]
      rw [splitLoop_acc]
      have ih1 := ih (count + 1) ((count + 1) / m) p
      have h1 : (count + 1) / m = count / m + 1 := div_succ_boundary h
      have h2 : (count + 1) / m ≤ (count + 1 + rest.length) / m :=
        Nat.div_le_div_right (by omega)
      have h3 : count + (l :: rest).length = count + 1 + rest.length := by
        simp only [List.length_cons]
        omega
      rw [h3]
      simp [ih1]
      omega
    · simp only [splitLoop, if_neg h]
      rw [ih]
      have h1 : (count + 1) / m = count / m := div_succ_off_boundary h
      have h3 : count + (l :: rest).length = count + 1 + rest.length := by
        simp only [List.length_cons]
        omega
      rw [h3, h1]

/-- The chunk indices the loop emits, starting from an open file whose
index is `count / m` (as at every `open` in the source), are the
consecutive integers from `count / m` on. -/
theorem splitLoop_range (p : List String) (m : Nat) (hm : 0 < m)
    (ls : List String) :
    ∀ (count : Nat) (cur : List String),
    (splitLoop p m ls count (count / m) cur []).1.map Prod.fst =
      List.range' (count / m)
        (splitLoop p m ls count (count / m) cur []).1.length := by
  induction ls with
  | nil =>
    intro count cur
    simp [splitLoop, List.range'_succ]
  | cons l rest ih =>
    intro count cur
    by_cases h : (count + 1) % m = 0
    · simp only [splitLoop, if_pos h]
      rw [splitLoop_acc]
      have h1 : (count + 1) / m = count / m + 1 := div_succ_boundary h
      have ih1 := ih (count + 1) p
      simp only [List.nil_append, List.map_cons, List.length_cons,
        List.map_append, List.length_append]
      rw [ih1, h1]
      simp only [List.map_nil, List.nil_append, List.length_nil, Nat.zero_add]
      rw [Nat.add_comm 1 ((splitLoop p m rest (count + 1) (count / m + 1) p []).1.length)]
      rw [List.range'_succ]
      simp
    · simp only [splitLoop, if_neg h]
      have h1 : (count + 1) / m = count / m := div_succ_off_boundary h
      have ih1 := ih (count + 1) (cur ++ [l])
      rw [h1] at ih1
      exact ih1

/-- Every output file the loop produces starts with the preamble: its
line list is the preamble followed by some suffix. -/
theorem splitLoop_prefix (p : List String) (m : Nat) (ls : List String) :
    ∀ (count curIdx : Nat) (c0 : List String) (c : Chunk),
    c ∈ (splitLoop p m ls count curIdx (p ++ c0) []).1 →
    ∃ r, c.2 = p ++ r := by
  induction ls with
  | nil =>
    intro count curIdx c0 c hc
    simp [splitLoop] at hc
    exact ⟨c0, by rw [hc]⟩
  | cons l rest ih =>
    intro count curIdx c0 c hc
    by_cases h : (count + 1) % m = 0
    · simp only [splitLoop, if_pos h] at hc
      rw [splitLoop_acc] at hc
      simp only [List.nil_append, List.singleton_append, List.mem_cons] at hc
      rcases hc with hc | hc
      · exact ⟨c0 ++ [l], by rw [hc]; simp⟩
      · have hc' : c ∈ (splitLoop p m rest (count + 1) ((count + 1) / m)
            (p ++ ([] : List String)) []).1 := by
          rw [List.append_nil]
          exact hc
        exact ih (count + 1) ((count + 1) / m) [] c hc'
    · simp only [splitLoop, if_neg h] at hc
      have h2 : (p ++ c0) ++ [l] = p ++ (c0 ++ [l]) := by simp
      rw [h2] at hc
      exact ih (count + 1) curIdx (c0 ++ [l]) c hc

/-- Size invariant in the aligned regime, i.e. once the open output
file's content length agrees with `count % m` (true from the first
rotation on, and from the start when `count0 % m = 0`): every output
file except the last gets exactly `m` content lines, none gets more than
`m`, and the last one gets exactly `(count + n) % m` content lines. -/
theorem splitLoop_sizes_aligned (p : List String) (m : Nat) (hm : 0 < m)
    (ls : List String) :
    ∀ (count curIdx : Nat) (c0 : List String), c0.length = count % m →
    (∀ c ∈ (splitLoop p m ls count curIdx (p ++ c0) []).1.dropLast,
      (contentOf p c).length = m) ∧
    (∀ c ∈ (splitLoop p m ls count curIdx (p ++ c0) []).1,
      (contentOf p c).length ≤ m) ∧
    (splitLoop p m ls count curIdx (p ++ c0) []).1.getLast?.map
      (fun c => (contentOf p c).length) = some ((count + ls.length) % m) := by
  induction ls with
  | nil =>
    intro count curIdx c0 hc0
    have hlt : count % m < m := Nat.mod_lt _ hm
    simp [splitLoop, contentOf, List.drop_left', hc0]
    omega
  | cons l rest ih =>
    intro count curIdx c0 hc0
    by_cases h : (count + 1) % m = 0
    · simp only [splitLoop, if_pos h]
      rw [splitLoop_acc]
      have hb : count % m + 1 = m := mod_succ_boundary hm h
      have hclosed : (contentOf p (curIdx, (p ++ c0) ++ [l])).length = m := by
        simp [contentOf, List.append_assoc, List.drop_left']
        omega
      have hp : (p : List String) = p ++ ([] : List String) := by simp
      have ih1 := ih (count + 1) ((count + 1) / m) [] (by simp [h])
      rw [← hp] at ih1
      obtain ⟨ih1a, ih1b, ih1c⟩ := ih1
      have hne := splitLoop_ne_nil p m rest (count + 1) ((count + 1) / m) p
      obtain ⟨r, rs, hrec⟩ := List.exists_cons_of_ne_nil hne
      refine ⟨?_, ?_, ?_⟩
      · intro c hmem
        simp only [List.nil_append, List.singleton_append] at hmem
        rw [List.dropLast_cons_of_ne_nil hne] at hmem
        rcases List.mem_cons.mp hmem with hcase | hcase
        · rw [hcase]; exact hclosed
        · exact ih1a c hcase
      · intro c hmem
        simp only [List.nil_append, List.singleton_append,
          List.mem_cons] at hmem
        rcases hmem with hcase | hcase
        · rw [hcase]; exact le_of_eq hclosed
        · exact ih1b c hcase
      · simp only [List.nil_append, List.singleton_append]
        rw [hrec, List.getLast?_cons_cons, ← hrec]
        rw [ih1c]
        have : count + 1 + rest.length = count + (rest.length + 1) := by omega
        rw [this]
        simp only [List.length_cons]
    · simp only [splitLoop, if_neg h]
      have hoff : (count + 1) % m = count % m + 1 := mod_succ_off_boundary hm h
      have h2 : (p ++ c0) ++ [l] = p ++ (c0 ++ [l]) := by simp
      rw [h2]
      have ih1 := ih (count + 1) curIdx (c0 ++ [l])
        (by simp [hoff, hc0])
      obtain ⟨ih1a, ih1b, ih1c⟩ := ih1
      refine ⟨ih1a, ih1b, ?_⟩
      rw [ih1c]
      have : count + 1 + rest.length = count + (rest.length + 1) := by omega
      rw [this]
      simp only [List.length_cons]

/-- Size bounds from an arbitrary start: with the open output file's
content no longer than `count % m` (true of the empty first file of any
input), no output file ever exceeds `m` content lines, and all output
files other than the first and the last get exactly `m`. -/
theorem splitLoop_sizes_start (p : List String) (m : Nat) (hm : 0 < m)
    (ls : List String) :
    ∀ (count curIdx : Nat) (c0 : List String), c0.length ≤ count % m →
    (∀ c ∈ (splitLoop p m ls count curIdx (p ++ c0) []).1,
      (contentOf p c).length ≤ m) ∧
    (∀ c ∈ (splitLoop p m ls count curIdx (p ++ c0) []).1.tail.dropLast,
      (contentOf p c).length = m) := by
  induction ls with
  | nil =>
    intro count curIdx c0 hc0
    have hlt : count % m < m := Nat.mod_lt _ hm
    simp [splitLoop, contentOf, List.drop_left']
    omega
  | cons l rest ih =>
    intro count curIdx c0 hc0
    by_cases h : (count + 1) % m = 0
    · simp only [splitLoop, if_pos h]
      rw [splitLoop_acc]
      have hb : count % m + 1 = m := mod_succ_boundary hm h
      have hclosed : (contentOf p (curIdx, (p ++ c0) ++ [l])).length ≤ m := by
        simp [contentOf, List.append_assoc, List.drop_left']
        omega
      have hp : (p : List String) = p ++ ([] : List String) := by simp
      have ih1 := splitLoop_sizes_aligned p m hm rest (count + 1)
        ((count + 1) / m) [] (by simp [h])
      rw [← hp] at ih1
      obtain ⟨ih1a, ih1b, _⟩ := ih1
      refine ⟨?_, ?_⟩
      · intro c hmem
        simp only [List.nil_append, List.singleton_append,
          List.mem_cons] at hmem
        rcases hmem with hcase | hcase
        · rw [hcase]; exact hclosed
        · exact ih1b c hcase
      · intro c hmem
        simp only [List.nil_append, List.singleton_append,
          List.tail_cons] at hmem
        exact ih1a c hmem
    · simp only [splitLoop, if_neg h]
      have hoff : (count + 1) % m = count % m + 1 := mod_succ_off_boundary hm h
      have h2 : (p ++ c0) ++ [l] = p ++ (c0 ++ [l]) := by simp
      rw [h2]
      exact ih (count + 1) curIdx (c0 ++ [l]) (by simp [hoff]; omega)

/-- Single file round trip: the content lines of its output files,
concatenated in order of creation, are the input lines. -/
theorem splitOne_flatten (p : List String) (m count0 : Nat)
    (ls : List String) :
    ((splitOne p m count0 ls).1.map (contentOf p)).flatten = ls := by
  have h := splitLoop_flatten p m ls count0 (count0 / m) []
  rw [List.append_nil, List.nil_append] at h
  exact h

/-- The chunk indices of a single input file are consecutive, starting at
`count0 / m`. -/
theorem splitOne_indices (p : List String) (m : Nat) (hm : 0 < m)
    (count0 : Nat) (ls : List String) :
    (splitOne p m count0 ls).1.map Prod.fst =
      List.range' (count0 / m) (splitOne p m count0 ls).1.length :=
  splitLoop_range p m hm ls count0 p

/-- A single input file always yields at least one output file. -/
theorem splitOne_ne_nil (p : List String) (m count0 : Nat)
    (ls : List String) : (splitOne p m count0 ls).1 ≠ [] :=
  splitLoop_ne_nil p m ls count0 (count0 / m) p

/-- Number of output files for one input file. -/
theorem splitOne_length (p : List String) (m : Nat) (hm : 0 < m)
    (count0 : Nat) (ls : List String) :
    (splitOne p m count0 ls).1.length =
      (count0 + ls.length) / m - count0 / m + 1 :=
  splitLoop_length p m hm ls count0 (count0 / m) p

/-- Every output file of a single input file starts with the preamble. -/
theorem splitOne_prefix (p : List String) (m count0 : Nat)
    (ls : List String) :
    ∀ c ∈ (splitOne p m count0 ls).1, ∃ r, c.2 = p ++ r := by
  intro c hc
  apply splitLoop_prefix p m ls count0 (count0 / m) [] c
  rw [List.append_nil]
  exact hc

/-- Size bounds for one input file: no output file exceeds `m` content
lines, and all output files other than the first and the last get
exactly `m`. -/
theorem splitOne_sizes (p : List String) (m : Nat) (hm : 0 < m)
    (count0 : Nat) (ls : List String) :
    (∀ c ∈ (splitOne p m count0 ls).1, (contentOf p c).length ≤ m) ∧
    (∀ c ∈ (splitOne p m count0 ls).1.tail.dropLast,
      (contentOf p c).length = m) := by
  have h := splitLoop_sizes_start p m hm ls count0 (count0 / m) []
    (Nat.zero_le _)
  rw [List.append_nil] at h
  exact h

/-- Size facts for an input file whose processing starts on a rotation
boundary (in particular the first input file, `count0 = 0`): all output
files except the last get exactly `m` content lines, and the last gets
`(count0 + n) % m`. -/
theorem splitOne_sizes_aligned (p : List String) (m : Nat) (hm : 0 < m)
    (count0 : Nat) (ls : List String) (h0 : count0 % m = 0) :
    (∀ c ∈ (splitOne p m count0 ls).1.dropLast, (contentOf p c).length = m) ∧
    (splitOne p m count0 ls).1.getLast?.map
      (fun c => (contentOf p c).length) = some ((count0 + ls.length) % m) := by
  have h := splitLoop_sizes_aligned p m hm ls count0 (count0 / m) []
    (by simp [h0])
  rw [List.append_nil] at h
  exact ⟨h.1, h.2.2⟩

/-- The counter after one input file: one increment per line plus the
final end-of-file iteration's increment. -/
theorem splitOne_count (p : List String) (m count0 : Nat)
    (ls : List String) :
    (splitOne p m count0 ls).2 = count0 + ls.length + 1 :=
  splitLoop_count p m ls count0 (count0 / m) p []

/-- Each entry of `splitAll`'s output is `splitOne` of the corresponding
input file at the counter value current when that file was reached. -/
theorem splitAll_getD (p : List String) (m : Nat) (files : List (List String)) :
    ∀ (count i : Nat), i < files.length →
    ∃ c, (splitAll p m files count).1.getD i [] =
      (splitOne p m c (files.getD i [])).1 := by
  induction files with
  | nil => intro count i hi; simp at hi
  | cons f fs ih =>
    intro count i hi
    cases i with
    | zero => exact ⟨count, by simp [splitAll]⟩
    | succ j =>
      have hj : j < fs.length := by simpa using hi
      obtain ⟨c, hc⟩ := ih (splitOne p m count f).2 j hj
      exact ⟨c, by simpa [splitAll] using hc⟩

/-- C1: lossless split (round-trip).  For every input file of an
invocation with positive `max_lines`, the content lines of its output
files (the lines after the preamble prefix), concatenated in chunk
order, are exactly the input file's line sequence; the chunk indices are
strictly increasing in order of creation, so creation order is
ascending chunk order. -/
theorem splitFile_roundtrip (p : List String) (m : Nat) (hm : 0 < m)
    (files : List (List String)) (count0 i : Nat) (hi : i < files.length) :
    ((((splitAll p m files count0).1.getD i []).map (contentOf p)).flatten =
      files.getD i []) ∧
    List.Pairwise (· < ·)
      (((splitAll p m files count0).1.getD i []).map Prod.fst) := by
  obtain ⟨c, hc⟩ := splitAll_getD p m files count0 i hi
  rw [hc]
  refine ⟨splitOne_flatten p m c _, ?_⟩
  rw [splitOne_indices p m hm c _]
  exact List.pairwise_lt_range' _ _

/-- Witness for C1 at a concrete invocation. -/
theorem splitFile_roundtrip_witness :
    ((0 : Nat) < 2 ∧ (0 : Nat) < List.length [["a\n", "b\n", "c\n"]]) ∧
    (((((splitAll ["h\n"] 2 [["a\n", "b\n", "c\n"]] 0).1.getD 0 []).map
        (contentOf ["h\n"])).flatten = [["a\n", "b\n", "c\n"]].getD 0 []) ∧
      List.Pairwise (· < ·)
        (((splitAll ["h\n"] 2 [["a\n", "b\n", "c\n"]] 0).1.getD 0 []).map
          Prod.fst)) :=
  ⟨⟨by decide, by decide⟩,
    splitFile_roundtrip ["h\n"] 2 (by decide) [["a\n", "b\n", "c\n"]] 0 0
      (by decide)⟩

/-- C2 (as stated) is false on the code: at an exact multiple of
`max_lines` the eagerly opened trailing output file is closed with zero
content lines, not between 1 and `max_lines`.  Here: sole input of 2
lines, `max_lines = 2`. -/
theorem splitFile_chunk_sizes_cex :
    ¬ (∀ c ∈ (splitOne [] 2 0 ["a\n", "b\n"]).1,
        1 ≤ (contentOf [] c).length) := by decide

/-- C2 (amended): every output file holds at most `max_lines` content
lines; every output file other than the first and the last of an input
file holds exactly `max_lines`; and when the running counter is a
multiple of `max_lines` as the input file's processing begins (always
true for the first input file), every output file except possibly the
last holds exactly `max_lines` — the last may hold as few as zero. -/
theorem splitFile_chunk_sizes (p : List String) (m : Nat) (hm : 0 < m)
    (count0 : Nat) (ls : List String) :
    (∀ c ∈ (splitOne p m count0 ls).1, (contentOf p c).length ≤ m) ∧
    (∀ c ∈ (splitOne p m count0 ls).1.tail.dropLast,
      (contentOf p c).length = m) ∧
    (count0 % m = 0 →
      ∀ c ∈ (splitOne p m count0 ls).1.dropLast,
        (contentOf p c).length = m) := by
  refine ⟨(splitOne_sizes p m hm count0 ls).1,
    (splitOne_sizes p m hm count0 ls).2, ?_⟩
  intro h0
  exact (splitOne_sizes_aligned p m hm count0 ls h0).1

/-- Witness for the amended C2 at a concrete input. -/
theorem splitFile_chunk_sizes_witness :
    (0 : Nat) < 2 ∧
    ((∀ c ∈ (splitOne ["h\n"] 2 0 ["a\n", "b\n", "c\n"]).1,
        (contentOf ["h\n"] c).length ≤ 2) ∧
      (∀ c ∈ (splitOne ["h\n"] 2 0 ["a\n", "b\n", "c\n"]).1.tail.dropLast,
        (contentOf ["h\n"] c).length = 2) ∧
      ((0 : Nat) % 2 = 0 →
        ∀ c ∈ (splitOne ["h\n"] 2 0 ["a\n", "b\n", "c\n"]).1.dropLast,
          (contentOf ["h\n"] c).length = 2)) :=
  ⟨by decide, splitFile_chunk_sizes ["h\n"] 2 (by decide) 0 ["a\n", "b\n", "c\n"]⟩

/-- C3: exact-multiple boundary.  For a sole input file (counter starts
at 0) of exactly `k * max_lines` lines, `k + 1` output files are
produced — the implementation eagerly opens a trailing file at the
boundary which is closed with zero content lines — and every non-empty
output file holds exactly `max_lines` content lines (after the
preamble). -/
theorem splitFile_exact_multiple (p : List String) (m k : Nat)
    (hm : 0 < m) (hk : 1 ≤ k) (ls : List String) (hn : ls.length = k * m) :
    (splitOne p m 0 ls).1.length = k + 1 ∧
    ((splitOne p m 0 ls).1.getLast?).map (contentOf p) = some [] ∧
    (∀ c ∈ (splitOne p m 0 ls).1, contentOf p c ≠ [] →
      (contentOf p c).length = m) := by
  have hne := splitOne_ne_nil p m 0 ls
  have hal := splitOne_sizes_aligned p m hm 0 ls (by simp)
  have hlast0 : ∀ c, (splitOne p m 0 ls).1.getLast? = some c →
      contentOf p c = [] := by
    intro c hc
    have h3 := hal.2
    rw [hc] at h3
    have h2 : (contentOf p c).length = (0 + ls.length) % m := by
      simpa using h3
    rw [Nat.zero_add, hn, Nat.mul_mod_left] at h2
    exact List.length_eq_zero.mp h2
  have hg : (splitOne p m 0 ls).1.getLast? =
      some ((splitOne p m 0 ls).1.getLast hne) :=
    List.getLast?_eq_getLast _ hne
  refine ⟨?_, ?_, ?_⟩
  · rw [splitOne_length p m hm 0 ls, hn]
    rw [Nat.zero_add, Nat.mul_div_cancel k hm, Nat.zero_div]
    omega
  · rw [hg]
    simp [hlast0 _ hg]
  · intro c hmem hne'
    have hsplit := List.dropLast_concat_getLast hne
    rw [← hsplit] at hmem
    rcases List.mem_append.mp hmem with hcase | hcase
    · exact hal.1 c hcase
    · exfalso
      apply hne'
      have hc : c = (splitOne p m 0 ls).1.getLast hne :=
        List.mem_singleton.mp hcase
      rw [hc]
      exact hlast0 _ hg

/-- Witness for C3 at a concrete input (`k = 1`, `max_lines = 2`). -/
theorem splitFile_exact_multiple_witness :
    ((0 : Nat) < 2 ∧ (1 : Nat) ≤ 1 ∧ List.length ["a\n", "b\n"] = 1 * 2) ∧
    ((splitOne [] 2 0 ["a\n", "b\n"]).1.length = 1 + 1 ∧
      ((splitOne [] 2 0 ["a\n", "b\n"]).1.getLast?).map (contentOf []) =
        some [] ∧
      (∀ c ∈ (splitOne [] 2 0 ["a\n", "b\n"]).1, contentOf [] c ≠ [] →
        (contentOf [] c).length = 2)) :=
  ⟨⟨by decide, by decide, by decide⟩,
    splitFile_exact_multiple [] 2 1 (by decide) (by decide) ["a\n", "b\n"]
      (by decide)⟩

/-- C4 (as stated) is false on the code: the first output file opened
for an input file after the first is not `<base>-0<ext>` — the counter
carries over, so here the second input's first chunk gets index 2. -/
theorem splitFile_naming_cex :
    ¬ (∀ chunks ∈ (splitAll [] 1 [["a\n"], ["b\n"]] 0).1,
        (chunks.map Prod.fst).head? = some 0) := by decide

/-- C4 (amended): every output file is named
`<stem>-<chunk-index><extension>`; the chunk indices of each input file
are the consecutive integers starting at `counter / max_lines` as of the
moment the file's processing begins — 0 for the first input file, whose
first output file is therefore `<base>-0<ext>`, but generally nonzero
for later input files — and each rotated file's index is the counter
divided by `max_lines` at the rotation boundary. -/
theorem splitFile_naming (p : List String) (m : Nat) (hm : 0 < m)
    (count0 : Nat) (ls : List String) (stem ext : String) :
    ((splitOne p m count0 ls).1.map (fun c => outputFilename stem ext c.1) =
      (List.range' (count0 / m) (splitOne p m count0 ls).1.length).map
        (outputFilename stem ext)) ∧
    (count0 = 0 →
      ((splitOne p m count0 ls).1.map
          (fun c => outputFilename stem ext c.1)).head? =
        some (outputFilename stem ext 0)) := by
  have hidx := splitOne_indices p m hm count0 ls
  have hmap : (splitOne p m count0 ls).1.map
      (fun c => outputFilename stem ext c.1) =
      (List.range' (count0 / m) (splitOne p m count0 ls).1.length).map
        (outputFilename stem ext) := by
    rw [← hidx, List.map_map]
    simp [Function.comp]
  refine ⟨hmap, ?_⟩
  intro h0
  subst h0
  rw [hmap]
  have hL : (splitOne p m 0 ls).1.length ≠ 0 := by
    intro hout
    exact splitOne_ne_nil p m 0 ls (List.length_eq_zero.mp hout)
  obtain ⟨n, hn2⟩ : ∃ n, (splitOne p m 0 ls).1.length = n + 1 :=
    ⟨_, (Nat.succ_pred_eq_of_pos (Nat.pos_of_ne_zero hL)).symm⟩
  rw [hn2, Nat.zero_div, List.range'_succ]
  simp

/-- Witness for the amended C4 at a concrete input. -/
theorem splitFile_naming_witness :
    (0 : Nat) < 2 ∧
    (((splitOne [] 2 0 ["a\n", "b\n", "c\n"]).1.map
        (fun c => outputFilename "f" ".txt" c.1) =
      (List.range' (0 / 2) (splitOne [] 2 0 ["a\n", "b\n", "c\n"]).1.length).map
        (outputFilename "f" ".txt")) ∧
      ((0 : Nat) = 0 →
        ((splitOne [] 2 0 ["a\n", "b\n", "c\n"]).1.map
            (fun c => outputFilename "f" ".txt" c.1)).head? =
          some (outputFilename "f" ".txt" 0))) :=
  ⟨by decide, splitFile_naming [] 2 (by decide) 0 ["a\n", "b\n", "c\n"] "f" ".txt"⟩

/-- C5 (as stated) is false on the code: after an input file of 1 line
the counter has increased by 2, not 1 — `count += 1` also runs on the
final iteration in which `readline` returns the empty string. -/
theorem splitFile_counter_cex :
    ¬ ((splitOne [] 2 0 ["a\n"]).2 = 0 + List.length ["a\n"]) := by decide

/-- C5 (amended): the counter is incremented exactly once per `readline`
call — once per line plus once for the final end-of-file read — so after
an input file of `n` lines it has increased by exactly `n + 1`. -/
theorem splitFile_counter (p : List String) (m count0 : Nat)
    (ls : List String) :
    (splitOne p m count0 ls).2 = count0 + ls.length + 1 :=
  splitOne_count p m count0 ls

/-- C6: preamble placement.  Every output file's lines are exactly the
loaded preamble followed by that file's content lines; in particular
with an empty preamble the content lines start at the top. -/
theorem splitFile_preamble_placement (p : List String) (m count0 : Nat)
    (ls : List String) :
    ∀ c ∈ (splitOne p m count0 ls).1, c.2 = p ++ contentOf p c := by
  intro c hc
  obtain ⟨r, hr⟩ := splitOne_prefix p m count0 ls c hc
  have hcont : contentOf p c = r := by
    simp [contentOf, hr, List.drop_left']
  rw [hr, hcont]

/-- Witness for C6 at a concrete input. -/
theorem splitFile_preamble_placement_witness :
    ((0, ["h\n", "a\n"]) ∈ (splitOne ["h\n"] 2 0 ["a\n"]).1) ∧
    ((0, ["h\n", "a\n"]) : Chunk).2 =
      ["h\n"] ++ contentOf ["h\n"] (0, ["h\n", "a\n"]) :=
  ⟨by decide,
    splitFile_preamble_placement ["h\n"] 2 0 ["a\n"] (0, ["h\n", "a\n"])
      (by decide)⟩

/-- C7: a preamble read failure is non-fatal — the run proceeds over all
input files with an empty preamble, producing exactly the output of an
invocation with no preamble specified. -/
theorem splitFile_preamble_failure_nonfatal (m : Nat)
    (files : List (String × Except Unit (List String))) :
    runSplit (some (Except.error ())) m files = runSplit none m files := rfl

/-- C8: an input file failure is fatal to the batch.  If the inputs are
some successfully processed files followed by a failing one, the run's
outputs are exactly those of the successful prefix (they remain as
written), the reported name is the offending input file's, and no
subsequent input file contributes anything. -/
theorem splitFile_input_failure_fatal (p : List String) (m : Nat)
    (good : List (String × List String)) (bad : String)
    (rest : List (String × Except Unit (List String))) (count0 : Nat) :
    splitAllE p m
        (good.map (fun f => (f.1, Except.ok f.2)) ++
          (bad, Except.error ()) :: rest) count0 =
      ((splitAllE p m (good.map (fun f => (f.1, Except.ok f.2))) count0).1,
        some bad) := by
  induction good generalizing count0 with
  | nil => rfl
  | cons g gs ih => simp [splitAllE, ih]

/-- C10: empty-input edge case.  A sole empty input file yields exactly
one output file, with chunk index 0, holding exactly the preamble lines
and zero content lines. -/
theorem splitFile_empty_input (p : List String) (m : Nat) (hm : 0 < m) :
    (splitAll p m [[]] 0).1 = [[(0, p)]] ∧ contentOf p (0, p) = [] := by
  constructor
  · simp [splitAll, splitOne, splitLoop, Nat.zero_div]
  · simp [contentOf]

/-- Witness for C10 at the default `max_lines = 50`. -/
theorem splitFile_empty_input_witness :
    (0 : Nat) < 50 ∧
    ((splitAll ["h\n"] 50 [[]] 0).1 = [[(0, ["h\n"])]] ∧
      contentOf ["h\n"] (0, ["h\n"]) = []) :=
  ⟨by decide, splitFile_empty_input ["h\n"] 50 (by decide)⟩

end SplitFile

namespace IcsReport

/-!
Embedding of `src/ics_parser/ics_parser.py`, function
`parse_ics_to_human_readable`.  A start or end value of an event is
either a full date/time (Python `datetime`) or a bare date (Python
`date`, an all-day event); `isinstance(dt_obj, datetime)` is tested
first in the source, which the sum type reflects.  Python `datetime`
values compare lexicographically by their fields; microseconds and
timezone info are not modelled (the repository's report treats a file's
values uniformly).  The report loop (lines 80-116) iterates the sorted
event list in order, so the order of events in the rendered report is
the order of `sortEvents`.
-/

/-- A calendar date/time value (Python `datetime`), compared field by
field, most significant first. -/
structure DateTime where
  year : Nat
  month : Nat
  day : Nat
  hour : Nat
  minute : Nat
  second : Nat
deriving DecidableEq

/-- A bare calendar date (Python `date`), the start of an all-day
event. -/
structure CalDate where
  year : Nat
  month : Nat
  day : Nat
deriving DecidableEq

/-- `datetime(dt_obj.year, dt_obj.month, dt_obj.day, 0, 0, 0)`
(ics_parser.py line 53): the sort key of an all-day event is midnight of
its date. -/
def midnight (d : CalDate) : DateTime :=
  ⟨d.year, d.month, d.day, 0, 0, 0⟩

/-- Python's `datetime.min`: 0001-01-01 00:00:00, the key substituted
for events lacking a start (ics_parser.py line 73). -/
def dtMin : DateTime := ⟨1, 1, 1, 0, 0, 0⟩

/-- Lexicographic comparison of date/time values, the order Python uses
to compare `datetime` objects. -/
def DateTime.le (a b : DateTime) : Bool :=
  decide (a.year < b.year ∨ (a.year = b.year ∧
    (a.month < b.month ∨ (a.month = b.month ∧
      (a.day < b.day ∨ (a.day = b.day ∧
        (a.hour < b.hour ∨ (a.hour = b.hour ∧
          (a.minute < b.minute ∨ (a.minute = b.minute ∧
            a.second ≤ b.second))))))))))

/-- One VEVENT as the source extracts it (ics_parser.py lines 30-68):
the fields kept in the event dictionary.  `start_prop`/`end_prop` hold
the raw start/end value when present. -/
structure Event where
  summary : String
  start_prop : Option (DateTime ⊕ CalDate)
  end_prop : Option (DateTime ⊕ CalDate)
  description : String
  location : String
  uid : String
deriving DecidableEq

/-- The stored `sort_key` (ics_parser.py lines 45-58): `none` when the
event has no start, the date/time itself for a `datetime` start, and
midnight of the date for an all-day (`date`) start. -/
def sort_key (e : Event) : Option DateTime :=
  match e.start_prop with
  | none => none
  | some (Sum.inl dt) => some dt
  | some (Sum.inr d) => some (midnight d)

/-- The key the sort lambda uses (ics_parser.py line 73):
`x['sort_key'] if x['sort_key'] is not None else datetime.min`. -/
def keyOrMin (e : Event) : DateTime :=
  (sort_key e).getD dtMin

/-- `events.sort(key=...)` (ics_parser.py line 73): a stable sort of the
extracted events by `keyOrMin`, modelled with the stable
`List.mergeSort`. -/
def sortEvents (events : List Event) : List Event :=
  events.mergeSort (fun a b => DateTime.le (keyOrMin a) (keyOrMin b))

/-- A date/time value representable by Python's `datetime` has year,
month and day at least 1 (so no value is below `datetime.min`). -/
def DateTime.validB (d : DateTime) : Bool :=
  decide (1 ≤ d.year ∧ 1 ≤ d.month ∧ 1 ≤ d.day)

/-- A parseable event's start, when present, is a representable
`datetime` or `date` value. -/
def startValidB (e : Event) : Bool :=
  match e.start_prop with
  | none => true
  | some (Sum.inl dt) => dt.validB
  | some (Sum.inr d) => decide (1 ≤ d.year ∧ 1 ≤ d.month ∧ 1 ≤ d.day)

/-- `DateTime.le` is transitive. -/
theorem DateTime.le_trans (a b c : DateTime) (hab : DateTime.le a b = true)
    (hbc : DateTime.le b c = true) : DateTime.le a c = true := by
  simp only [DateTime.le, decide_eq_true_eq] at hab hbc ⊢
  omega

/-- `DateTime.le` is total. -/
theorem DateTime.le_total' (a b : DateTime) :
    (DateTime.le a b || DateTime.le b a) = true := by
  simp only [DateTime.le, Bool.or_eq_true, decide_eq_true_eq]
  omega

/-- `datetime.min` is below every representable date/time value. -/
theorem dtMin_le (d : DateTime) (hv : d.validB = true) :
    DateTime.le dtMin d = true := by
  simp only [DateTime.validB, decide_eq_true_eq] at hv
  simp only [DateTime.le, dtMin, decide_eq_true_eq]
  omega

/-- C9: chronological sort in the calendar extractor.  For any extracted
event list whose start values are representable, the sorted event list —
the order in which the report renders the events — is nondecreasing in
the sort key, is a permutation of the extracted events, all-day events
are keyed as midnight of their date, and every event lacking a start
has the minimal key, so such events come first. -/
theorem icsReport_sorted (events : List Event)
    (hv : ∀ e ∈ events, startValidB e = true) :
    List.Pairwise
      (fun a b => DateTime.le (keyOrMin a) (keyOrMin b) = true)
      (sortEvents events) ∧
    (sortEvents events).Perm events ∧
    (∀ e ∈ events, e.start_prop = none →
      ∀ e' ∈ events, DateTime.le (keyOrMin e) (keyOrMin e') = true) ∧
    (∀ e ∈ events, ∀ d, e.start_prop = some (Sum.inr d) →
      keyOrMin e = midnight d) := by
  refine ⟨?_, ?_, ?_, ?_⟩
  · have htrans : ∀ a b c : Event,
        DateTime.le (keyOrMin a) (keyOrMin b) = true →
        DateTime.le (keyOrMin b) (keyOrMin c) = true →
        DateTime.le (keyOrMin a) (keyOrMin c) = true :=
      fun a b c hab hbc => DateTime.le_trans _ _ _ hab hbc
    have htotal : ∀ a b : Event,
        (DateTime.le (keyOrMin a) (keyOrMin b) ||
          DateTime.le (keyOrMin b) (keyOrMin a)) = true :=
      fun a b => DateTime.le_total' _ _
    have h := List.sorted_mergeSort htrans htotal events
    exact h
  · exact List.mergeSort_perm events _
  · intro e he h0 e' he'
    have hkey : keyOrMin e = dtMin := by simp [keyOrMin, sort_key, h0]
    rw [hkey]
    cases hs : e'.start_prop with
    | none =>
      have hkey' : keyOrMin e' = dtMin := by simp [keyOrMin, sort_key, hs]
      rw [hkey']
      decide
    | some v =>
      cases v with
      | inl dt =>
        have hv' := hv e' he'
        simp only [startValidB, hs] at hv'
        have hkey' : keyOrMin e' = dt := by simp [keyOrMin, sort_key, hs]
        rw [hkey']
        exact dtMin_le dt hv'
      | inr d =>
        have hv' := hv e' he'
        simp only [startValidB, hs, decide_eq_true_eq] at hv'
        have hkey' : keyOrMin e' = midnight d := by
          simp [keyOrMin, sort_key, hs]
        rw [hkey']
        apply dtMin_le
        simp only [DateTime.validB, midnight, decide_eq_true_eq]
        exact hv'
  · intro e he d hd
    simp [keyOrMin, sort_key, hd]

/-- A concrete extracted event list: one event without a start, one with
a date/time start. -/
def sampleEvents : List Event :=
  [⟨"b", none, none, "", "", ""⟩,
   ⟨"a", some (Sum.inl ⟨2024, 5, 1, 9, 30, 0⟩), none, "", "", ""⟩]

/-- Witness for C9 at a concrete event list. -/
theorem icsReport_sorted_witness :
    (∀ e ∈ sampleEvents, startValidB e = true) ∧
    (List.Pairwise
        (fun a b => DateTime.le (keyOrMin a) (keyOrMin b) = true)
        (sortEvents sampleEvents) ∧
      (sortEvents sampleEvents).Perm sampleEvents ∧
      (∀ e ∈ sampleEvents, e.start_prop = none →
        ∀ e' ∈ sampleEvents,
          DateTime.le (keyOrMin e) (keyOrMin e') = true) ∧
      (∀ e ∈ sampleEvents, ∀ d, e.start_prop = some (Sum.inr d) →
        keyOrMin e = midnight d)) :=
  ⟨by decide, icsReport_sorted sampleEvents (by decide)⟩

end IcsReport
